import Mathlib

/-!
Shallow embedding of `what_theme` (src/lib.rs): a line-oriented scalar
extractor over `settings.json`-like documents, and a manifest scan that
collates `(label, extension-id)` pairs from installed-extension records.

Modelling notes.

The extractor in the source is the regex
`(?m)^\s*"KEY"\s*:\s*"(?P<name>.*?)",?\s*?$` (built by `make_json_regex`,
which escapes every `.` of the key; the recognized keys contain no other
metacharacters, so the quoted key is matched literally), searched with
`Regex::captures`, i.e. leftmost match.  Because of the `^` anchor
(multiline) a match can begin only at a line start, and from a fixed
start the attempt is deterministic: each greedy `\s*` is followed by a
character that is not whitespace, so it consumes the maximal whitespace
run — which, since `\s` includes the newline, may span line breaks — and
the lazy capture `.*?` together with the tail `,?\s*?$` inspects only the
current line, because `.` does not match a newline and `$` accepts at the
first line end reached over whitespace.  The embedding mirrors exactly
this: `matchFrom` is the deterministic attempt at one start position
(whitespace gaps crossing newlines, value and tail truncated at the
current line's end), and `captures` tries the suffixes of the document
that begin at line starts, leftmost first.  `matchLine` is the restriction
of the attempt to a single line, used to state per-line properties.

The manifest scan spawns one scoped thread per extension record, joins all
of them, and drains an mpsc channel.  File-system and JSON collaborators
(path canonicalization, file reading, serde deserialization) are
out-of-scope collaborators per the spec and are abstracted as an explicit
environment of partial functions.  The channel makes the order of the
collected list nondeterministic across runs; the embedding collects the
per-record contributions in record order, and order-insensitive claims are
stated on the multiset of results.
-/

namespace WhatTheme

/-- The `\s` class of the pattern language: space, tab, newline, vertical
tab, form feed, carriage return. -/
def isWs (c : Char) : Bool :=
  c == ' ' || c == '\t' || c == '\n' || c == '\x0b' || c == '\x0c' || c == '\r'

/-- Match a literal character sequence at the head of the input, returning
the rest on success. -/
def dropLit : List Char → List Char → Option (List Char)
  | [], cs => some cs
  | _ :: _, [] => none
  | p :: ps, c :: cs => if p = c then dropLit ps cs else none

/-- The tail `,?\s*?$` of the pattern, within a single line: an optional
comma followed by whitespace only up to the end of the line. -/
def tailMatch : List Char → Bool
  | ',' :: rest => rest.all isWs
  | cs => cs.all isWs

/-- The lazy capture `(?P<name>.*?)",?\s*?$`: the value is the shortest
prefix of the remaining line that is followed by a double quote whose own
remainder satisfies `tailMatch`; a quote at which the tail fails is
consumed into the capture by backtracking. -/
def findValue : List Char → List Char → Option (List Char)
  | _, [] => none
  | acc, c :: rest =>
    if c == '"' && tailMatch rest then some acc.reverse
    else findValue (c :: acc) rest

/-- One line matched against `^\s*"KEY"\s*:\s*"(.*?)",?\s*?$`.  The key is
matched literally (`make_json_regex` escapes its dots and the keys carry
no other metacharacters). -/
def matchLine (key : List Char) (line : List Char) : Option (List Char) :=
  match dropLit ('"' :: key ++ ['"']) (line.dropWhile isWs) with
  | none => none
  | some r1 =>
    match r1.dropWhile isWs with
    | ':' :: r2 =>
      match r2.dropWhile isWs with
      | '"' :: r3 => findValue [] r3
      | _ => none
    | _ => none

/-- Split a document into its lines at newline characters. -/
def splitLines : List Char → List (List Char)
  | [] => [[]]
  | '\n' :: rest => [] :: splitLines rest
  | c :: rest =>
    match splitLines rest with
    | [] => [[c]]
    | l :: ls => (c :: l) :: ls

/-- The current line of a suffix of the document: its characters up to the
first newline.  `.` does not match a newline and `$` accepts at the first
line end reached over whitespace, so the value-and-tail part of the
pattern sees exactly this prefix. -/
def takeLine (cs : List Char) : List Char :=
  cs.takeWhile fun c => !(c == '\n')

/-- The deterministic match attempt of
`^\s*"KEY"\s*:\s*"(.*?)",?\s*?$` at one `^` position: each whitespace gap
is a maximal whitespace run (it may span line breaks, since `\s` matches
the newline), the key is matched literally, and the capture and tail are
confined to the line the value starts on. -/
def matchFrom (key : List Char) (cs : List Char) : Option (List Char) :=
  (dropLit ('"' :: key ++ ['"']) (cs.dropWhile isWs)).bind fun r1 =>
    (dropLit [':'] (r1.dropWhile isWs)).bind fun r2 =>
      (dropLit ['"'] (r2.dropWhile isWs)).bind fun r3 =>
        findValue [] (takeLine r3)

/-- Rejoin lines into the suffix of the document they came from. -/
def joinLines : List (List Char) → List Char
  | [] => []
  | [l] => l
  | l :: ls => l ++ '\n' :: joinLines ls

/-- `Regex::captures`: try the match attempt at every `^` position — the
start of each line — in order, returning the leftmost capture. -/
def capturesAux (key : List Char) : List (List Char) → Option (List Char)
  | [] => none
  | l :: ls =>
    match matchFrom key (joinLines (l :: ls)) with
    | some v => some v
    | none => capturesAux key ls

/-- `make_json_regex`: the compiled pattern for a dotted key, embedded as
its leftmost-match search over the document. -/
def make_json_regex (key : String) : List Char → Option (List Char) :=
  fun cs => capturesAux key.data (splitLines cs)

/-- `extract`: capture of the leftmost match of the pattern in the
document. -/
def extract (re : List Char → Option (List Char)) (data : String) : Option String :=
  (re data.data).map String.mk

/-- The static `WORKBENCH_COLOR_THEME` pattern. -/
def WORKBENCH_COLOR_THEME : List Char → Option (List Char) :=
  make_json_regex ("workbench.colorTheme")

/-- The static `WORKBENCH_EDITOR_FONT` pattern. -/
def WORKBENCH_EDITOR_FONT : List Char → Option (List Char) :=
  make_json_regex ("editor.fontFamily")

/-- The static `WORKBENCH_TERMINAL_FONT` pattern. -/
def WORKBENCH_TERMINAL_FONT : List Char → Option (List Char) :=
  make_json_regex ("terminal.integrated.fontFamily")

/-- The crate's error enum; only the variants reachable from the embedded
operations matter here. -/
inductive Error
  | CannotFindBaseDir
  | Io
  | CannotFindCurrentTheme
  | CannotFindEditorFont
  | CannotFindTerminalFont
  | Json
deriving DecidableEq

/-- Found fonts from the configuration. -/
structure FoundFonts where
  editor : String
  terminal : String
deriving DecidableEq

/-- `get_current_theme_from`: extract the active theme or fail with
`CannotFindCurrentTheme`. -/
def get_current_theme_from (data : String) : Except Error String :=
  match extract WORKBENCH_COLOR_THEME data with
  | some v => .ok v
  | none => .error .CannotFindCurrentTheme

/-- `get_current_fonts_from`: extract the editor font (failing with
`CannotFindEditorFont`), then the terminal font (failing with
`CannotFindTerminalFont`), mirroring the source's `?` sequencing. -/
def get_current_fonts_from (data : String) : Except Error FoundFonts :=
  match extract WORKBENCH_EDITOR_FONT data with
  | none => .error .CannotFindEditorFont
  | some editor =>
    match extract WORKBENCH_TERMINAL_FONT data with
    | none => .error .CannotFindTerminalFont
    | some terminal => .ok { editor := editor, terminal := terminal }

/-- A found theme (extension) from the vscode extension cache. -/
structure FoundTheme where
  id : String
  variant : String
deriving DecidableEq

/-- `FoundTheme::url`: the marketplace url of the extension. -/
def FoundTheme.url (t : FoundTheme) : String :=
  ("https://marketplace.visualstudio.com/items?itemName=") ++ t.id

/-- An entry of the aggregated index. -/
structure LabeledTheme where
  label : String
  id : String
deriving DecidableEq

/-- The aggregated index wrapper. -/
structure VsCodeSettings where
  list : List LabeledTheme
deriving DecidableEq

/-- `VsCodeSettings::find_theme`: `find_map` over the stored list, keeping
the first entry whose label equals `current` under string equality. -/
def VsCodeSettings.find_theme (s : VsCodeSettings) (current : String) : Option FoundTheme :=
  s.list.findSome? fun c =>
    if c.label = current then some { id := c.id, variant := c.label } else none

namespace vscode_data

/-- `vscode_data::Identifier`; in the source it is `#[serde(default)]`, so
a record missing the field deserializes to the empty string. -/
structure Identifier where
  id : String
deriving DecidableEq

/-- `vscode_data::Location`. -/
structure Location where
  path : String
deriving DecidableEq

/-- `vscode_data::Result`: one installed-extension record. -/
structure Result where
  identifier : Identifier
  location : Location
deriving DecidableEq

/-- `vscode_data::Theme`: one contributed theme. -/
structure Theme where
  label : String
deriving DecidableEq

/-- `vscode_data::Contributes`; `themes` is `#[serde(default)]`. -/
structure Contributes where
  themes : List Theme
deriving DecidableEq

/-- `vscode_data::Manifest`; all fields default when absent. -/
structure Manifest where
  categories : List String
  contributes : Contributes
deriving DecidableEq

end vscode_data

/-- The out-of-scope collaborators of the scan, abstracted: the platform
flag, path canonicalization, file reading, and manifest deserialization.
Each of the partial functions may fail; the scan absorbs any failure as a
silent skip of that record. -/
structure FsEnv where
  isWindows : Bool
  canonicalize : String → Option String
  readFile : String → Option String
  parseManifest : String → Option vscode_data.Manifest

/-- `undo_the_node_path_thing`: on windows, strip a spurious leading `/`
left by URI-style encoding; elsewhere the path is returned unchanged. -/
def undo_the_node_path_thing (isWindows : Bool) (s : String) : String :=
  if isWindows then
    match s.data with
    | '/' :: rest => String.mk rest
    | _ => s
  else s

/-- The manifest path of a record: join `package.json` onto the (possibly
stripped) install path and canonicalize, which may fail. -/
def manifest_path (env : FsEnv) (r : vscode_data.Result) : Option String :=
  env.canonicalize (undo_the_node_path_thing env.isWindows r.location.path ++ ("/package.json"))

/-- One scan unit (the body of one spawned thread in `collate_themes`):
resolve the record's manifest path, read the file, parse the manifest, and
emit one `LabeledTheme` per contributed theme; any failing step makes the
unit emit nothing. -/
def record_contrib (env : FsEnv) (r : vscode_data.Result) : List LabeledTheme :=
  match manifest_path env r with
  | none => []
  | some p =>
    match env.readFile p with
    | none => []
    | some data =>
      match env.parseManifest data with
      | none => []
      | some m =>
        m.contributes.themes.map fun t => { label := t.label, id := r.identifier.id }

/-- `VsCodeSettings::collate_themes`: every unit's emissions are drained
from the channel after the structured join; the embedding collects them in
record order (the channel order is nondeterministic across runs, so
order-insensitive properties are stated on multisets).  The function is
total: no per-record failure is surfaced. -/
def collate_themes (env : FsEnv) (list : List vscode_data.Result) : List LabeledTheme :=
  (list.map (record_contrib env)).flatten

/-- Modelled from the spec for claim C9 only: the spec's description of
the capture, "up to the first unescaped-looking quote", read as truncating
the raw value region at the first double quote not preceded by a
backslash.  This is the spec-side definition to compare against the
code-side `findValue`. -/
def truncAtFirstUnescapedQuote : List Char → List Char
  | [] => []
  | '\\' :: '"' :: rest => '\\' :: '"' :: truncAtFirstUnescapedQuote rest
  | '"' :: _ => []
  | c :: rest => c :: truncAtFirstUnescapedQuote rest

/-- Fixture: the same recognized key bound on line 3 (value `A`) and on
line 10 (value `B`); the other lines match nothing. -/
def c3_doc : String :=
  "a\nb\n  \"workbench.colorTheme\": \"A\",\nc\nd\ne\nf\ng\nh\n  \"workbench.colorTheme\": \"B\",\nj"

/-- Fixture: a key/colon pair split across lines 1 and 2 (the `\s*` gap of
the pattern absorbs the line break, so the code captures `X` from line 2),
followed by two ordinary lines binding the same key to `A` and `B`. -/
def c3_adv_doc : String :=
  "\"workbench.colorTheme\"\n: \"X\",\n  \"workbench.colorTheme\": \"A\",\n  \"workbench.colorTheme\": \"B\","

/-- Fixture: only the split key/colon pair — no single line matches the
pattern, yet the pattern matches across the line break. -/
def c6_split_doc : String := "\"workbench.colorTheme\"\n: \"X\","

/-- Fixture key `editor` X `fontFamily` with an arbitrary character in
place of the dot. -/
def c4_key (X : Char) : List Char :=
  'e' :: 'd' :: 'i' :: 't' :: 'o' :: 'r' :: X :: ['f', 'o', 'n', 't', 'F', 'a', 'm', 'i', 'l', 'y']

/-- Fixture line binding the key `editor` X `fontFamily` to value `v`,
otherwise fitting the quoted-key/colon/quoted-value pattern. -/
def c4_line (X : Char) : List Char :=
  ('"' :: c4_key X ++ ['"']) ++ [':', ' ', '"', 'v', '"', ',']

/-- Fixture line whose value region holds an escaped quote followed by a
further quote and more content: the raw line is `"k": "a\" x" y",`. -/
def c9_doc : String := "\"k\": \"a\\\" x\" y\","

/-- Fixture index with two entries. -/
def c2_idx : VsCodeSettings :=
  ⟨[{ label := "Solarized Light", id := "pub.solar" }, { label := "Dracula Pro", id := "dr.pro" }]⟩

/-- Fixture index with one entry, label `Dracula`, id `a.b`. -/
def c7_idx : VsCodeSettings := ⟨[{ label := "Dracula", id := "a.b" }]⟩

/-- Fixture environment in which every record fails at canonicalization. -/
def envAllFail : FsEnv :=
  { isWindows := false
    canonicalize := fun _ => none
    readFile := fun _ => none
    parseManifest := fun _ => none }

/-- Fixture record pointing at a nonexistent path. -/
def rec0 : vscode_data.Result :=
  { identifier := { id := "pub.ext" }, location := { path := "/tmp/missing" } }

/-- Fixture environment in which the manifest reads successfully and
parses — as serde with `#[serde(default)]` does — to a manifest whose one
contributed theme has the empty string as its label. -/
def envC8 : FsEnv :=
  { isWindows := false
    canonicalize := some
    readFile := fun _ => some ("manifest")
    parseManifest := fun _ =>
      some { categories := [], contributes := { themes := [{ label := "" }] } } }

/-- Fixture record whose identifier deserialized to the empty string, as
the `#[serde(default)]` on `Identifier` permits. -/
def recC8 : vscode_data.Result :=
  { identifier := { id := "" }, location := { path := "ext" } }

/-- Fixture document in which no recognized key occurs. -/
def c6_doc : String := "nothing of interest on this line"

/-- Fixture document with a terminal font but no editor font. -/
def c10_doc : String := "\"terminal.integrated.fontFamily\": \"Mono\""

theorem dropLit_append (p cs : List Char) : dropLit p (p ++ cs) = some cs := by
  induction p with
  | nil => rfl
  | cons a as ih => simp [dropLit, ih]

theorem dropLit_cons_same (p : Char) (ps cs : List Char) :
    dropLit (p :: ps) (p :: cs) = dropLit ps cs := by
  simp [dropLit]

theorem dropLit_append_cons (k : List Char) (q : Char) (rest : List Char) :
    dropLit (k ++ [q]) (k ++ q :: rest) = some rest := by
  induction k with
  | nil => simp [dropLit]
  | cons a as ih => simp [dropLit, ih]

theorem splitLines_cons_ne (c : Char) (h : c ≠ '\n') (rest : List Char) :
    splitLines (c :: rest)
      = match splitLines rest with | [] => [[c]] | l :: ls => (c :: l) :: ls := by
  rw [splitLines.eq_def]
  simp [h]

theorem splitLines_no_nl (l : List Char) (h : ∀ c ∈ l, c ≠ '\n') : splitLines l = [l] := by
  induction l with
  | nil => rfl
  | cons c rest ih =>
    rw [splitLines_cons_ne c (h c (List.mem_cons_self c rest)),
      ih fun d hd => h d (List.mem_cons_of_mem c hd)]

theorem splitLines_no_newline (cs : List Char) :
    ∀ l ∈ splitLines cs, ∀ c ∈ l, c ≠ '\n' := by
  induction cs with
  | nil => simp [splitLines]
  | cons a rest ih =>
    by_cases ha : a = '\n'
    · subst ha
      intro l hl
      rw [show splitLines ('\n' :: rest) = [] :: splitLines rest from rfl] at hl
      rcases List.mem_cons.mp hl with rfl | hl2
      · simp
      · exact ih l hl2
    · intro l hl
      rw [splitLines_cons_ne a ha rest] at hl
      cases hsp : splitLines rest with
      | nil =>
        rw [hsp] at hl
        simp at hl
        subst hl
        simpa using ha
      | cons m ms =>
        rw [hsp] at hl
        rcases List.mem_cons.mp hl with rfl | hl2
        · intro c hc
          rcases List.mem_cons.mp hc with rfl | hc2
          · exact ha
          · exact ih m (by rw [hsp]; exact List.mem_cons_self m ms) c hc2
        · exact ih l (by rw [hsp]; exact List.mem_cons_of_mem m hl2)

theorem matchFrom_nil (key : List Char) : matchFrom key [] = none := rfl

theorem capturesAux_cons (key : List Char) (l : List Char) (ls : List (List Char)) :
    capturesAux key (l :: ls)
      = match matchFrom key (joinLines (l :: ls)) with
        | some v => some v
        | none => capturesAux key ls := rfl

theorem capturesAux_none_iff (key : List Char) (ls : List (List Char)) :
    capturesAux key ls = none ↔ ∀ ts ∈ ls.tails, matchFrom key (joinLines ts) = none := by
  induction ls with
  | nil => simp [capturesAux, matchFrom_nil, joinLines]
  | cons l ls ih =>
    rw [capturesAux_cons, List.tails_cons]
    cases hm : matchFrom key (joinLines (l :: ls)) with
    | some v => simp [hm]
    | none => simp [hm, ih]

theorem capturesAux_of_first (key : List Char) (l1 : List (List Char)) (la : List Char)
    (ls : List (List Char)) (A : List Char)
    (h1 : ∀ n < l1.length, matchFrom key (joinLines (l1.drop n ++ la :: ls)) = none)
    (ha : matchFrom key (joinLines (la :: ls)) = some A) :
    capturesAux key (l1 ++ la :: ls) = some A := by
  induction l1 with
  | nil =>
    rw [List.nil_append, capturesAux_cons, ha]
  | cons x xs ih =>
    rw [List.cons_append, capturesAux_cons]
    have h0 := h1 0 (Nat.zero_lt_succ xs.length)
    rw [List.drop_zero, List.cons_append] at h0
    rw [h0]
    exact ih fun n hn => by
      have := h1 (n + 1) (Nat.succ_lt_succ hn)
      rwa [List.drop_succ_cons] at this

theorem dropWhile_append_ne_nil (p : Char → Bool) (xs ys : List Char)
    (h : xs.dropWhile p ≠ []) :
    (xs ++ ys).dropWhile p = xs.dropWhile p ++ ys := by
  induction xs with
  | nil => simp at h
  | cons a as ih =>
    by_cases hp : p a = true
    · rw [List.dropWhile_cons_of_pos hp] at h ⊢
      rw [List.cons_append, List.dropWhile_cons_of_pos hp]
      exact ih h
    · rw [List.dropWhile_cons_of_neg hp] at h ⊢
      rw [List.cons_append, List.dropWhile_cons_of_neg hp]

theorem dropLit_append_some (pat : List Char) : ∀ xs r ys : List Char,
    dropLit pat xs = some r → dropLit pat (xs ++ ys) = some (r ++ ys) := by
  induction pat with
  | nil =>
    intro xs r ys h
    simp [dropLit] at h ⊢
    rw [h]
  | cons p ps ih =>
    intro xs r ys h
    cases xs with
    | nil => simp [dropLit] at h
    | cons x xs2 =>
      simp only [dropLit] at h
      by_cases hpx : p = x
      · rw [if_pos hpx] at h
        rw [List.cons_append]
        simp only [dropLit]
        rw [if_pos hpx]
        exact ih xs2 r ys h
      · rw [if_neg hpx] at h
        exact Option.noConfusion h

theorem dropLit_mem (pat : List Char) : ∀ xs r : List Char,
    dropLit pat xs = some r → ∀ c ∈ r, c ∈ xs := by
  induction pat with
  | nil =>
    intro xs r h c hc
    simp [dropLit] at h
    rw [h]
    exact hc
  | cons p ps ih =>
    intro xs r h c hc
    cases xs with
    | nil => simp [dropLit] at h
    | cons x xs2 =>
      simp only [dropLit] at h
      by_cases hpx : p = x
      · rw [if_pos hpx] at h
        exact List.mem_cons_of_mem x (ih xs2 r h c hc)
      · rw [if_neg hpx] at h
        exact Option.noConfusion h

theorem takeLine_append (xs ys : List Char) (h : ∀ c ∈ xs, c ≠ '\n') :
    takeLine (xs ++ '\n' :: ys) = xs := by
  induction xs with
  | nil => simp [takeLine, List.takeWhile]
  | cons a as ih =>
    rw [List.cons_append]
    unfold takeLine at ih ⊢
    rw [List.takeWhile_cons_of_pos
      (by simpa using h a (List.mem_cons_self a as)),
      ih fun c hc => h c (List.mem_cons_of_mem a hc)]

theorem joinLines_cons_ne_nil (l : List Char) (ls : List (List Char)) (h : ls ≠ []) :
    joinLines (l :: ls) = l ++ '\n' :: joinLines ls := by
  cases ls with
  | nil => exact absurd rfl h
  | cons m ms => rfl

theorem matchFrom_of_matchLine (key la t A : List Char)
    (hnl : ∀ c ∈ la, c ≠ '\n') (h : matchLine key la = some A) :
    matchFrom key (la ++ '\n' :: t) = some A := by
  unfold matchLine at h
  split at h
  · exact Option.noConfusion h
  · rename_i r1 hdl
    split at h
    · rename_i r2 hr1
      split at h
      · rename_i r3 hr2
        have hlane : la.dropWhile isWs ≠ [] := by
          intro hh
          rw [hh] at hdl
          simp [dropLit] at hdl
        have hmem : ∀ c ∈ r3, c ∈ la := by
          intro c hc
          have h4 : c ∈ r2 :=
            List.dropWhile_subset isWs (by rw [hr2]; exact List.mem_cons_of_mem _ hc)
          have h6 : c ∈ r1 :=
            List.dropWhile_subset isWs (by rw [hr1]; exact List.mem_cons_of_mem _ h4)
          exact List.dropWhile_subset isWs (dropLit_mem _ _ _ hdl c h6)
        unfold matchFrom
        rw [dropWhile_append_ne_nil isWs la ('\n' :: t) hlane,
          dropLit_append_some _ _ _ ('\n' :: t) hdl]
        rw [Option.some_bind]
        rw [dropWhile_append_ne_nil isWs r1 ('\n' :: t) (by rw [hr1]; exact List.cons_ne_nil _ _),
          hr1, List.cons_append,
          show dropLit [':'] (':' :: (r2 ++ '\n' :: t)) = some (r2 ++ '\n' :: t) by
            simp [dropLit]]
        rw [Option.some_bind]
        rw [dropWhile_append_ne_nil isWs r2 ('\n' :: t) (by rw [hr2]; exact List.cons_ne_nil _ _),
          hr2, List.cons_append,
          show dropLit ['"'] ('"' :: (r3 ++ '\n' :: t)) = some (r3 ++ '\n' :: t) by
            simp [dropLit]]
        rw [Option.some_bind]
        rw [takeLine_append r3 t fun c hc => hnl c (hmem c hc)]
        exact h
      · exact Option.noConfusion h
    · exact Option.noConfusion h

theorem findValue_eq_some (cs : List Char) : ∀ acc v : List Char,
    findValue acc cs = some v →
    ∃ pre rest, cs = pre ++ '"' :: rest ∧ tailMatch rest = true
      ∧ v = acc.reverse ++ pre
      ∧ ∀ p2 r2, cs = p2 ++ '"' :: r2 → tailMatch r2 = true → pre.length ≤ p2.length := by
  induction cs with
  | nil => intro acc v h; simp [findValue] at h
  | cons c rest ih =>
    intro acc v h
    simp only [findValue] at h
    by_cases hc : (c == '"' && tailMatch rest) = true
    · rw [if_pos hc] at h
      obtain ⟨hc1, hc2⟩ := Bool.and_eq_true_iff.mp hc
      have hcq : c = '"' := beq_iff_eq.mp hc1
      cases h
      refine ⟨[], rest, by simp [hcq], hc2, by simp, ?_⟩
      intro p2 r2 _ _
      exact Nat.zero_le _
    · rw [if_neg hc] at h
      obtain ⟨pre1, rest1, hsplit, htail, hv, hmin⟩ := ih (c :: acc) v h
      refine ⟨c :: pre1, rest1, by rw [List.cons_append, hsplit], htail, ?_, ?_⟩
      · rw [hv]
        simp
      · intro p2 r2 hp2 hr2
        cases p2 with
        | nil =>
          rw [List.nil_append] at hp2
          cases hp2
          exact absurd (by simp [hr2]) hc
        | cons d p2x =>
          rw [List.cons_append] at hp2
          have hrest : rest = p2x ++ '"' :: r2 := (List.cons.inj hp2).2
          have := hmin p2x r2 hrest hr2
          simpa using Nat.succ_le_succ this

theorem findSome_cons (f : α → Option β) (x : α) (xs : List α) :
    (x :: xs).findSome? f = match f x with | some b => some b | none => xs.findSome? f := rfl

theorem findSome_none_iff (f : α → Option β) (l : List α) :
    l.findSome? f = none ↔ ∀ a ∈ l, f a = none := by
  induction l with
  | nil => simp [List.findSome?]
  | cons x xs ih =>
    rw [findSome_cons]
    cases hx : f x with
    | some b => simp [hx]
    | none => simp [hx, ih]

theorem findSome_some_split (f : α → Option β) (l : List α) (b : β)
    (h : l.findSome? f = some b) :
    ∃ l1 a l2, l = l1 ++ a :: l2 ∧ f a = some b ∧ ∀ x ∈ l1, f x = none := by
  induction l with
  | nil => simp [List.findSome?] at h
  | cons x xs ih =>
    rw [findSome_cons] at h
    cases hx : f x with
    | some c =>
      rw [hx] at h
      cases h
      exact ⟨[], x, xs, rfl, hx, by simp⟩
    | none =>
      rw [hx] at h
      obtain ⟨l1, a, l2, hl, ha, h1⟩ := ih h
      refine ⟨x :: l1, a, l2, by rw [hl, List.cons_append], ha, ?_⟩
      intro y hy
      rcases List.mem_cons.mp hy with rfl | hy2
      · exact hx
      · exact h1 y hy2

theorem collate_cons (env : FsEnv) (r : vscode_data.Result) (rs : List vscode_data.Result) :
    collate_themes env (r :: rs) = record_contrib env r ++ collate_themes env rs := by
  simp [collate_themes]

/-- C1: the multiset of `LabeledTheme` entries returned by
`collate_themes` equals the union over records of each record's
contribution — one `(label, id)` pair per contributed theme of a record
whose manifest path canonicalizes, reads, and parses, and nothing for a
record failing any of those steps (`record_contrib` is exactly that
per-record contribution, and the scan is a total function: no error is
returned); consequently a list in which every record fails yields the
empty index. -/
theorem collate_themes_complete (env : FsEnv) (l : List vscode_data.Result) :
    ((collate_themes env l : List LabeledTheme) : Multiset LabeledTheme)
      = (l.map fun r => ((record_contrib env r : List LabeledTheme) : Multiset LabeledTheme)).sum
    ∧ ((∀ r ∈ l, record_contrib env r = []) → collate_themes env l = []) := by
  constructor
  · induction l with
    | nil => simp [collate_themes]
    | cons r rs ih =>
      rw [collate_cons, List.map_cons, List.sum_cons, ← ih]
      exact Multiset.coe_add _ _
  · induction l with
    | nil => intro _; rfl
    | cons r rs ih =>
      intro hfail
      rw [collate_cons, hfail r (List.mem_cons_self r rs), List.nil_append]
      exact ih fun x hx => hfail x (List.mem_cons_of_mem r hx)

/-- C1 witness: with the all-failing environment the single-record scan
yields the empty index. -/
theorem collate_themes_complete_witness :
    (∀ r ∈ [rec0], record_contrib envAllFail r = []) ∧ collate_themes envAllFail [rec0] = [] :=
  ⟨by decide, (collate_themes_complete envAllFail [rec0]).2 (by decide)⟩

/-- C2: `find_theme` returns `none` — not an error — exactly when no
stored entry's label equals the requested label under exact string
equality, and any returned `FoundTheme` comes from the first entry (in
stored order) whose label equals the request. -/
theorem find_theme_first_match (s : VsCodeSettings) (current : String) :
    (s.find_theme current = none ↔ ∀ c ∈ s.list, c.label ≠ current)
    ∧ ∀ ft, s.find_theme current = some ft →
        ∃ l1 c l2, s.list = l1 ++ c :: l2 ∧ c.label = current
          ∧ (∀ d ∈ l1, d.label ≠ current)
          ∧ ft = { id := c.id, variant := c.label } := by
  constructor
  · unfold VsCodeSettings.find_theme
    rw [findSome_none_iff]
    constructor
    · intro h c hc heq
      have h2 := h c hc
      rw [if_pos heq] at h2
      exact Option.noConfusion h2
    · intro h c hc
      rw [if_neg (h c hc)]
  · intro ft hft
    unfold VsCodeSettings.find_theme at hft
    obtain ⟨l1, c, l2, hl, hc, h1⟩ := findSome_some_split _ _ _ hft
    by_cases heq : c.label = current
    · rw [if_pos heq] at hc
      cases hc
      refine ⟨l1, c, l2, hl, heq, ?_, rfl⟩
      intro d hd heqd
      have h2 := h1 d hd
      rw [if_pos heqd] at h2
      exact Option.noConfusion h2
    · rw [if_neg heq] at hc
      exact Option.noConfusion hc

/-- C2 witness: an absent label gives `none`, and a present label is
resolved to its first (here unique) matching entry. -/
theorem find_theme_first_match_witness :
    (c2_idx.find_theme ("Emacs Classic") = none ∧ ∀ c ∈ c2_idx.list, c.label ≠ ("Emacs Classic"))
    ∧ ∃ l1 c l2, c2_idx.list = l1 ++ c :: l2 ∧ c.label = ("Dracula Pro")
        ∧ (∀ d ∈ l1, d.label ≠ ("Dracula Pro"))
        ∧ ({ id := "dr.pro", variant := "Dracula Pro" } : FoundTheme)
            = { id := c.id, variant := c.label } :=
  ⟨⟨(find_theme_first_match c2_idx ("Emacs Classic")).1.mpr (by decide), by decide⟩,
    (find_theme_first_match c2_idx ("Dracula Pro")).2
      { id := "dr.pro", variant := "Dracula Pro" } (by decide)⟩

/-- C3 counterexample: the claim fails on a document whose first two lines
split a key/colon pair across the line break.  `c3_adv_doc` contains a
line binding `workbench.colorTheme` to `A` and a later line binding it to
`B` (the conjuncts identify them among the document's lines), yet
extraction returns `X` — the capture of the leftmost match, which starts
on line 1 and takes its value from line 2 — and `X` is the value of no
single matching line. -/
theorem extract_first_line_cex :
    extract WORKBENCH_COLOR_THEME c3_adv_doc = some ("X")
    ∧ matchLine (("workbench.colorTheme").data) (("  \"workbench.colorTheme\": \"A\",").data)
        = some (("A").data)
    ∧ matchLine (("workbench.colorTheme").data) (("  \"workbench.colorTheme\": \"B\",").data)
        = some (("B").data)
    ∧ splitLines c3_adv_doc.data
        = [("\"workbench.colorTheme\"").data, (": \"X\",").data,
           ("  \"workbench.colorTheme\": \"A\",").data, ("  \"workbench.colorTheme\": \"B\",").data]
    ∧ ∀ l ∈ splitLines c3_adv_doc.data,
        matchLine (("workbench.colorTheme").data) l ≠ some (("X").data) := by
  decide

/-- C3 amended: extraction returns the capture of the leftmost match,
trying line starts in forward-scan order; so when no line start before the
first fully-matching line begins a (possibly line-spanning) match, the
first matching line's value is returned, and later duplicate keys — such
as the one binding `B` — are ignored. -/
theorem extract_first_match_wins (key : String) (doc : String)
    (l1 : List (List Char)) (la : List Char) (l2 : List (List Char)) (lb : List Char)
    (l3 : List (List Char)) (A B : List Char)
    (hdoc : splitLines doc.data = l1 ++ la :: (l2 ++ lb :: l3))
    (h1 : ∀ n < l1.length,
      matchFrom key.data (joinLines (l1.drop n ++ la :: (l2 ++ lb :: l3))) = none)
    (ha : matchLine key.data la = some A)
    (hb : matchLine key.data lb = some B) :
    extract (make_json_regex key) doc = some (String.mk A) := by
  have hnl : ∀ c ∈ la, c ≠ '\n' := by
    have hla : la ∈ splitLines doc.data := by
      rw [hdoc]
      exact List.mem_append_right _ (List.mem_cons_self _ _)
    exact splitLines_no_newline doc.data la hla
  have hsuf : matchFrom key.data (joinLines (la :: (l2 ++ lb :: l3))) = some A := by
    rw [joinLines_cons_ne_nil la (l2 ++ lb :: l3) (by cases l2 <;> simp)]
    exact matchFrom_of_matchLine key.data la (joinLines (l2 ++ lb :: l3)) A hnl ha
  show (capturesAux key.data (splitLines doc.data)).map String.mk = some (String.mk A)
  rw [hdoc, capturesAux_of_first key.data l1 la (l2 ++ lb :: l3) A h1 hsuf]
  rfl

/-- C3 amended witness: `workbench.colorTheme` bound to `A` on line 3 and
to `B` on line 10; the attempts at the two earlier line starts fail, so
the first-declared value wins. -/
theorem extract_first_match_wins_witness :
    extract WORKBENCH_COLOR_THEME c3_doc = some ("A") :=
  extract_first_match_wins ("workbench.colorTheme") c3_doc
    [("a").data, ("b").data] (("  \"workbench.colorTheme\": \"A\",").data)
    [("c").data, ("d").data, ("e").data, ("f").data, ("g").data, ("h").data]
    (("  \"workbench.colorTheme\": \"B\",").data) [("j").data]
    (("A").data) (("B").data)
    (by decide) (by decide) (by decide) (by decide)

/-- C4: dots in a key are matched literally: the compiled pattern for
`editor.fontFamily` rejects a line binding `editor` X `fontFamily` for
every character X other than the dot, even though that line fits the
quoted-key/colon/quoted-value pattern for its own key. -/
theorem dot_literal_matching (X : Char) (hX : X ≠ '.') :
    WORKBENCH_EDITOR_FONT (c4_line X) = none
    ∧ matchLine (c4_key X) (c4_line X) = some ['v'] := by
  have hne : ('.' : Char) ≠ X := fun h => hX h.symm
  constructor
  · show capturesAux (("editor.fontFamily").data) (splitLines (c4_line X)) = none
    by_cases hnl : X = '\n'
    · subst hnl
      decide
    · have hm : matchFrom (("editor.fontFamily").data) (c4_line X) = none := by
        unfold matchFrom c4_line c4_key
        simp [dropLit, List.dropWhile, isWs, hne]
      have hchars : ∀ c ∈ c4_line X, c ≠ '\n' := by
        have hform : c4_line X
            = ['"', 'e', 'd', 'i', 't', 'o', 'r']
              ++ X :: ['f', 'o', 'n', 't', 'F', 'a', 'm', 'i', 'l', 'y',
                '"', ':', ' ', '"', 'v', '"', ','] := by
          simp [c4_line, c4_key]
        rw [hform]
        intro c hc
        rcases List.mem_append.mp hc with h1 | h2
        · exact (by decide :
            ∀ c ∈ (['"', 'e', 'd', 'i', 't', 'o', 'r'] : List Char), c ≠ '\n') c h1
        · rcases List.mem_cons.mp h2 with rfl | h3
          · exact hnl
          · exact (by decide :
              ∀ c ∈ (['f', 'o', 'n', 't', 'F', 'a', 'm', 'i', 'l', 'y',
                '"', ':', ' ', '"', 'v', '"', ','] : List Char), c ≠ '\n') c h3
      rw [splitLines_no_nl (c4_line X) hchars, capturesAux_cons,
        show joinLines [c4_line X] = c4_line X from rfl, hm]
      rfl
  · unfold matchLine c4_line
    simp only [List.cons_append, List.append_assoc, List.singleton_append,
      List.dropWhile_cons_of_neg (show ¬ isWs '"' = true by decide)]
    rw [dropLit_cons_same, dropLit_append_cons]
    rfl

/-- C4 witness at X = `Q`. -/
theorem dot_literal_matching_witness :
    WORKBENCH_EDITOR_FONT (c4_line ('Q')) = none
    ∧ matchLine (c4_key ('Q')) (c4_line ('Q')) = some ['v'] :=
  dot_literal_matching ('Q') (by decide)

/-- C5: extraction tolerates leading indentation, a trailing comma and
trailing whitespace: the document whose one line is
`  "editor.fontFamily": "Fira Code",  ` yields `Fira Code`. -/
theorem tolerant_extraction :
    extract WORKBENCH_EDITOR_FONT ("  \"editor.fontFamily\": \"Fira Code\",  ")
      = some ("Fira Code") := by
  decide

/-- C6 counterexample: "None exactly when no line matches" fails on the
document whose key and colon sit on consecutive lines: no single line of
`c6_split_doc` matches the pattern, yet the pattern matches across the
line break (the `\s*` gap absorbs the newline) and extraction returns
`X`. -/
theorem extract_none_per_line_cex :
    extract WORKBENCH_COLOR_THEME c6_split_doc = some ("X")
    ∧ ∀ l ∈ splitLines c6_split_doc.data, matchLine (("workbench.colorTheme").data) l = none := by
  decide

/-- C6 amended: extraction returns `none` exactly when the pattern matches
at no line start of the document (a match's whitespace gaps may span line
breaks, so a match need not lie within one line); `get_current_theme_from`
translates that `none` into `CannotFindCurrentTheme` and
`get_current_fonts_from` into `CannotFindEditorFont` or
`CannotFindTerminalFont` for the respective missing key; and when the
pattern matches, the extracted value is returned without error. -/
theorem extraction_failure_translation (d : String) :
    (extract WORKBENCH_COLOR_THEME d = none
      ↔ ∀ ts ∈ (splitLines d.data).tails,
          matchFrom (("workbench.colorTheme").data) (joinLines ts) = none)
    ∧ (extract WORKBENCH_COLOR_THEME d = none →
        get_current_theme_from d = .error .CannotFindCurrentTheme)
    ∧ (∀ v, extract WORKBENCH_COLOR_THEME d = some v → get_current_theme_from d = .ok v)
    ∧ (extract WORKBENCH_EDITOR_FONT d = none →
        get_current_fonts_from d = .error .CannotFindEditorFont)
    ∧ (∀ e, extract WORKBENCH_EDITOR_FONT d = some e →
        extract WORKBENCH_TERMINAL_FONT d = none →
        get_current_fonts_from d = .error .CannotFindTerminalFont)
    ∧ ∀ e t, extract WORKBENCH_EDITOR_FONT d = some e →
        extract WORKBENCH_TERMINAL_FONT d = some t →
        get_current_fonts_from d = .ok { editor := e, terminal := t } := by
  refine ⟨?_, ?_, ?_, ?_, ?_, ?_⟩
  · show (capturesAux (("workbench.colorTheme").data) (splitLines d.data)).map String.mk = none ↔ _
    rw [Option.map_eq_none', capturesAux_none_iff]
  · intro h
    unfold get_current_theme_from
    rw [h]
  · intro v h
    unfold get_current_theme_from
    rw [h]
  · intro h
    unfold get_current_fonts_from
    rw [h]
  · intro e he ht
    unfold get_current_fonts_from
    rw [he, ht]
  · intro e t he ht
    unfold get_current_fonts_from
    rw [he, ht]

/-- C6 witness: a matchless document raises `CannotFindCurrentTheme`; the
duplicate-key fixture returns its first value without error. -/
theorem extraction_failure_translation_witness :
    get_current_theme_from c6_doc = .error .CannotFindCurrentTheme
    ∧ get_current_theme_from c3_doc = .ok ("A") :=
  ⟨(extraction_failure_translation c6_doc).2.1 (by decide),
    (extraction_failure_translation c3_doc).2.2.1 ("A") (by decide)⟩

/-- C7: every `FoundTheme` obtained by resolving a label against the index
carries the id of a matching index entry, and its derived marketplace URL
is the fixed marketplace item string concatenated with that entry's
extension id. -/
theorem found_theme_url_of_find (s : VsCodeSettings) (current : String) (ft : FoundTheme)
    (h : s.find_theme current = some ft) :
    ∃ c ∈ s.list, c.label = current ∧ ft.id = c.id
      ∧ ft.url = ("https://marketplace.visualstudio.com/items?itemName=") ++ c.id := by
  unfold VsCodeSettings.find_theme at h
  obtain ⟨l1, c, l2, hl, hc, h1⟩ := findSome_some_split _ _ _ h
  by_cases heq : c.label = current
  · rw [if_pos heq] at hc
    cases hc
    exact ⟨c, by rw [hl]; exact List.mem_append_right _ (List.mem_cons_self c l2), heq, rfl, rfl⟩
  · rw [if_neg heq] at hc
    exact Option.noConfusion hc

/-- C7 witness: on the index containing label `Dracula` with id `a.b`,
finding `Dracula` yields a theme whose URL is the concrete marketplace
URL ending in `a.b`. -/
theorem found_theme_url_of_find_witness :
    (c7_idx.find_theme ("Dracula") = some { id := "a.b", variant := "Dracula" })
    ∧ (∃ c ∈ c7_idx.list, c.label = ("Dracula")
        ∧ ({ id := "a.b", variant := "Dracula" } : FoundTheme).id = c.id
        ∧ ({ id := "a.b", variant := "Dracula" } : FoundTheme).url
            = ("https://marketplace.visualstudio.com/items?itemName=") ++ c.id)
    ∧ ({ id := "a.b", variant := "Dracula" } : FoundTheme).url
        = ("https://marketplace.visualstudio.com/items?itemName=a.b") :=
  ⟨by decide,
    found_theme_url_of_find c7_idx ("Dracula") { id := "a.b", variant := "Dracula" } (by decide),
    by decide⟩

/-- C8 counterexample: the scan enforces no non-emptiness — a record whose
identifier deserialized to the empty string (permitted by
`#[serde(default)]`) and a manifest contributing a theme with the empty
label (a valid manifest shape) produce an emitted `LabeledTheme` with
both fields empty, refuting the claimed invariant. -/
theorem labeled_theme_nonempty_cex :
    ¬ ∀ t ∈ collate_themes envC8 [recC8], t.label ≠ ("") ∧ t.id ≠ ("") := by
  decide

/-- C8 amended: every `LabeledTheme` emitted by the scan carries, verbatim
and unvalidated, the label of some theme contributed by a successfully
resolved, read and parsed manifest of one of the input records, and that
record's identifier — the fields may be empty since they are copied
without any non-emptiness check. -/
theorem labeled_theme_provenance (env : FsEnv) (l : List vscode_data.Result)
    (t : LabeledTheme) (ht : t ∈ collate_themes env l) :
    ∃ r ∈ l, t.id = r.identifier.id ∧ ∃ p data m,
      manifest_path env r = some p ∧ env.readFile p = some data
      ∧ env.parseManifest data = some m
      ∧ t.label ∈ m.contributes.themes.map vscode_data.Theme.label := by
  induction l with
  | nil => simp [collate_themes] at ht
  | cons r rs ih =>
    rw [collate_cons] at ht
    rcases List.mem_append.mp ht with h | h
    · refine ⟨r, List.mem_cons_self r rs, ?_⟩
      unfold record_contrib at h
      cases hp : manifest_path env r with
      | none => rw [hp] at h; simp at h
      | some p =>
        rw [hp] at h
        dsimp only at h
        cases hd : env.readFile p with
        | none => rw [hd] at h; simp at h
        | some data =>
          rw [hd] at h
          dsimp only at h
          cases hm : env.parseManifest data with
          | none => rw [hm] at h; simp at h
          | some m =>
            rw [hm] at h
            dsimp only at h
            obtain ⟨th, hth, hteq⟩ := List.mem_map.mp h
            refine ⟨?_, p, data, m, rfl, hd, hm, ?_⟩
            · rw [← hteq]
            · rw [← hteq]
              exact List.mem_map.mpr ⟨th, hth, rfl⟩
    · obtain ⟨r2, hr2, rest⟩ := ih h
      exact ⟨r2, List.mem_cons_of_mem r hr2, rest⟩

/-- C8 amended witness: the empty-fielded emission of the counterexample
environment is traced back to its record and manifest. -/
theorem labeled_theme_provenance_witness :
    ({ label := "", id := "" } : LabeledTheme) ∈ collate_themes envC8 [recC8]
    ∧ ∃ r ∈ [recC8], ({ label := "", id := "" } : LabeledTheme).id = r.identifier.id
        ∧ ∃ p data m, manifest_path envC8 r = some p ∧ envC8.readFile p = some data
            ∧ envC8.parseManifest data = some m
            ∧ ({ label := "", id := "" } : LabeledTheme).label
                ∈ m.contributes.themes.map vscode_data.Theme.label :=
  ⟨by decide, labeled_theme_provenance envC8 [recC8] { label := "", id := "" } (by decide)⟩

/-- C9 counterexample: for the line `"k": "a\" x" y",` — whose value
region contains the escape sequence backslash-quote — the code captures
`a\" x" y`, which extends past the first unescaped-looking quote and is
not the truncation the claim describes. -/
theorem escaped_quote_capture_cex :
    extract (make_json_regex ("k")) c9_doc = some ("a\\\" x\" y")
    ∧ ("a\\\" x\" y") ≠ String.mk (truncAtFirstUnescapedQuote (("a\\\" x\" y\",").data)) := by
  decide

/-- C9 amended: the capture is the shortest prefix of the value region
that is followed by a double quote whose line remainder is an optional
comma and trailing whitespace; it is copied verbatim (no unescaping), and
it may extend past the first unescaped-looking quote when the shorter
split's remainder does not match. -/
theorem capture_shortest (cs v : List Char) (h : findValue [] cs = some v) :
    ∃ rest, cs = v ++ '"' :: rest ∧ tailMatch rest = true
      ∧ ∀ p2 r2, cs = p2 ++ '"' :: r2 → tailMatch r2 = true → v.length ≤ p2.length := by
  obtain ⟨pre, rest, hsplit, htail, hv, hmin⟩ := findValue_eq_some cs [] v h
  rw [List.reverse_nil, List.nil_append] at hv
  subst hv
  exact ⟨rest, hsplit, htail, hmin⟩

/-- C9 amended witness: the decomposition at the counterexample's value
region, which contains an escaped quote. -/
theorem capture_shortest_witness :
    ∃ rest, (("a\\\" x\" y\",").data) = (("a\\\" x\" y").data) ++ '"' :: rest
      ∧ tailMatch rest = true
      ∧ ∀ p2 r2, (("a\\\" x\" y\",").data) = p2 ++ '"' :: r2 → tailMatch r2 = true
          → ((("a\\\" x\" y").data)).length ≤ p2.length :=
  capture_shortest (("a\\\" x\" y\",").data) (("a\\\" x\" y").data) (by decide)

/-- C10: `get_current_fonts_from` gives the editor-font lookup precedence
— a missing editor font yields `CannotFindEditorFont` regardless of the
terminal key, `CannotFindTerminalFont` arises only with the editor font
found, and any `ok` result carries exactly the two extracted values (no
partial `FoundFonts` exists). -/
theorem fonts_error_precedence (d : String) :
    (extract WORKBENCH_EDITOR_FONT d = none →
        get_current_fonts_from d = .error .CannotFindEditorFont)
    ∧ (∀ e, extract WORKBENCH_EDITOR_FONT d = some e →
        extract WORKBENCH_TERMINAL_FONT d = none →
        get_current_fonts_from d = .error .CannotFindTerminalFont)
    ∧ ∀ r, get_current_fonts_from d = .ok r →
        extract WORKBENCH_EDITOR_FONT d = some r.editor
        ∧ extract WORKBENCH_TERMINAL_FONT d = some r.terminal := by
  refine ⟨?_, ?_, ?_⟩
  · intro h
    unfold get_current_fonts_from
    rw [h]
  · intro e he ht
    unfold get_current_fonts_from
    rw [he, ht]
  · intro r hr
    unfold get_current_fonts_from at hr
    cases he : extract WORKBENCH_EDITOR_FONT d with
    | none => rw [he] at hr; exact Except.noConfusion hr
    | some e =>
      rw [he] at hr
      cases ht : extract WORKBENCH_TERMINAL_FONT d with
      | none => rw [ht] at hr; exact Except.noConfusion hr
      | some t =>
        rw [ht] at hr
        obtain rfl := Except.ok.inj hr
        exact ⟨rfl, rfl⟩

/-- C10 witness: a document with only the terminal font still fails with
`CannotFindEditorFont`. -/
theorem fonts_error_precedence_witness :
    get_current_fonts_from c10_doc = .error .CannotFindEditorFont
    ∧ extract WORKBENCH_TERMINAL_FONT c10_doc = some ("Mono") :=
  ⟨(fonts_error_precedence c10_doc).1 (by decide), by decide⟩

end WhatTheme
